import Mathlib

/-!
Shallow embedding of the offline reconciliation core in `src/src/lib/sync.ts`
(audit log storage, queued-action replay, full synchronization, merge algorithm).
Timestamps are modelled as the parsed epoch value of the ISO string that the
source feeds to `new Date(...)`, so `updatedAt` is an `Option Int`; an absent or
falsy `updatedAt` field is `none`.  The remote store (a supabase client, external
to the repository) is modelled as an oracle deciding which remote operations
succeed; a failing remote call corresponds to a rejected promise.
-/

/-- A collection record, as required by the generic bound of `mergeData`
(`id`, optional `updatedAt`, `createdAt`, plus collection-specific fields that
the reconciliation logic treats as opaque, collapsed into `payload`). -/
structure Rec where
  id : String
  updatedAt : Option Int
  createdAt : String
  payload : String
  deriving DecidableEq

/-- Keys of an association list modelling a JS `Map` from record id to record. -/
def keys (m : List (String × Rec)) : List String :=
  m.map Prod.fst

/-- `Map.get`: the value stored at key `k`, if any. -/
def mapGet (m : List (String × Rec)) (k : String) : Option Rec :=
  (m.find? (fun p => p.1 == k)).map Prod.snd

/-- `Map.set`: replace the value at an existing key in place (a JS `Map` keeps
the original insertion position on overwrite), or append a fresh binding. -/
def mapSet : List (String × Rec) → String → Rec → List (String × Rec)
  | [], k, v => [(k, v)]
  | p :: m, k, v => if p.1 == k then (k, v) :: m else p :: mapSet m k v

/-- The body of the `local.forEach` loop of `mergeData`: a local `item` is
inserted when its id is absent, replaces the stored record when both carry
`updatedAt` and the local one is strictly later, and is dropped otherwise. -/
def mergeStep (m : List (String × Rec)) (item : Rec) : List (String × Rec) :=
  match mapGet m item.id with
  | none => mapSet m item.id item
  | some remoteItem =>
    match item.updatedAt, remoteItem.updatedAt with
    | some lu, some ru => if ru < lu then mapSet m item.id item else m
    | _, _ => m

/-- The decision `mergeStep` makes at the single key it touches, expressed on
the stored value: used to specify `mergeStep` and the fold over local records. -/
def mergeDecide (old : Option Rec) (item : Rec) : Option Rec :=
  match old with
  | none => some item
  | some remoteItem =>
    match item.updatedAt, remoteItem.updatedAt with
    | some lu, some ru => if ru < lu then some item else some remoteItem
    | _, _ => some remoteItem

/-- The seeding loop of `mergeData`: `remote.forEach(item => merged.set(item.id, item))`. -/
def seedRemote (remote : List Rec) : List (String × Rec) :=
  remote.foldl (fun m item => mapSet m item.id item) []

/-- The map built by `mergeData` before `Array.from(merged.values())`. -/
def buildMerged (localRecs remote : List Rec) : List (String × Rec) :=
  localRecs.foldl mergeStep (seedRemote remote)

/-- `syncService.mergeData`: seed a map with every remote record, fold the
local records through the conflict rule, and return the values of the map. -/
def mergeData (localRecs remote : List Rec) : List Rec :=
  (buildMerged localRecs remote).map Prod.snd

/-- The `entityType` union of an audit log entry. -/
inductive EntityType where
  | medicine
  | sale
  | refund
  | expense
  deriving DecidableEq

/-- An audit log entry (`AuditLog` interface in the source). -/
structure AuditLog where
  id : String
  userId : String
  username : String
  action : String
  entityType : EntityType
  entityId : String
  details : String
  timestamp : String
  deriving DecidableEq

/-- `auditLogStorage.add` on the stored list of logs: push the new entry, then
`splice(0, length - 1000)` whenever the length exceeds 1000. -/
def auditLogAdd (logs : List AuditLog) (log : AuditLog) : List AuditLog :=
  let logs1 := logs ++ [log]
  if 1000 < logs1.length then logs1.drop (logs1.length - 1000) else logs1

/-- Modelled from the spec: the `QueuedAction` type lives in the missing
`storage.ts` module; the spec gives its shape as
`id, type in (medicine, sale, refund, expense), action in (create, update,
delete), data payload, createdAt`.  `type` and `action` are strings because the
source dispatches on them with string comparisons. -/
structure QueuedAction where
  id : String
  type : String
  action : String
  data : Rec
  createdAt : String
  deriving DecidableEq

/-- A remote operation issued against the supabase client. -/
inductive RemoteOp where
  | insert (table : String) (data : Rec)
  | update (table : String) (id : String) (data : Rec)
  | delete (table : String) (id : String)
  | upsert (table : String) (records : List Rec)
  deriving DecidableEq

/-- The table-name mapping at the top of `processQueuedAction`. -/
def tableFor (t : String) : String :=
  if t = "medicine" then "medicines"
  else if t = "sale" then "sales"
  else if t = "refund" then "refunds"
  else "expenses"

/-- The remote operation the `if / else if` chain of `processQueuedAction`
issues for an action: `create` inserts the payload, `update` updates matched by
`data.id`, `delete` deletes matched by `data.id`, and any other `action` string
falls through the chain without issuing a call. -/
def remoteOpFor (a : QueuedAction) : Option RemoteOp :=
  if a.action = "create" then some (RemoteOp.insert (tableFor a.type) a.data)
  else if a.action = "update" then some (RemoteOp.update (tableFor a.type) a.data.id a.data)
  else if a.action = "delete" then some (RemoteOp.delete (tableFor a.type) a.data.id)
  else none

/-- `syncService.processQueuedAction` under the remote oracle `ok`: the list of
remote calls it performs and whether the returned promise resolves (it rejects
exactly when the remote call it issued fails). -/
def processQueuedAction (ok : RemoteOp → Bool) (a : QueuedAction) :
    List RemoteOp × Bool :=
  match remoteOpFor a with
  | none => ([], true)
  | some op => ([op], ok op)

/-- Modelled from the spec: `queueStorage.remove` lives in the missing
`storage.ts` module; the spec specifies idempotent removal by id. -/
def queueRemove (q : List QueuedAction) (actionId : String) : List QueuedAction :=
  q.filter (fun a => !(a.id == actionId))

/-- Observable outcome of a `processQueue` pass: the loop iterations in order,
the remote calls performed, and the resulting queue store. -/
structure QueueResult where
  attempts : List QueuedAction
  calls : List RemoteOp
  store : List QueuedAction
  deriving DecidableEq

/-- One iteration of the `for (const action of queue)` loop: attempt the
action; on resolution remove it from the queue store, on rejection log and
leave the store untouched. -/
def queueStep (ok : RemoteOp → Bool) (r : QueueResult) (a : QueuedAction) : QueueResult :=
  { attempts := r.attempts ++ [a]
    calls := r.calls ++ (processQueuedAction ok a).1
    store := if (processQueuedAction ok a).2 then queueRemove r.store a.id else r.store }

/-- `syncService.processQueue`: a no-op when supabase is not configured;
otherwise snapshot the queue store and iterate the snapshot, removing each
action from the store exactly when its attempt resolves. -/
def processQueue (cfg : Bool) (ok : RemoteOp → Bool) (store : List QueuedAction) :
    QueueResult :=
  if cfg then store.foldl (queueStep ok) ⟨[], [], store⟩
  else ⟨[], [], store⟩

/-- Result of one awaited supabase select: the `data` field, `none` when the
response carries no data. -/
structure FetchResult where
  data : Option (List Rec)
  deriving DecidableEq

/-- Modelled from the spec: the local record store (missing `storage.ts`)
holds one snapshot per collection (`getAll` / full-snapshot `save`), the
durable queue store, and the `offlineStorage` connectivity flag. -/
structure SyncState where
  medicines : List Rec
  sales : List Rec
  refunds : List Rec
  expenses : List Rec
  queue : List QueuedAction
  offline : Bool
  deriving DecidableEq

/-- A remote interaction performed by the sync service: a collection fetch or
a mutation operation. -/
inductive RemoteCall where
  | fetch (table : String)
  | op (o : RemoteOp)
  deriving DecidableEq

/-- Observable outcome of a `fullSync` call: the error re-surfaced to the
caller (if any), the remote calls performed, and the final local state. -/
structure FullSyncResult where
  error : Option String
  calls : List RemoteCall
  state : SyncState
  deriving DecidableEq

/-- `Promise.all` over the four collection fetches: resolves with all four
results, or rejects with the error of a failing fetch. -/
def promiseAll4 (m s r x : Except String FetchResult) :
    Except String (FetchResult × FetchResult × FetchResult × FetchResult) := do
  let a ← m
  let b ← s
  let c ← r
  let d ← x
  return (a, b, c, d)

/-- One `if (result.data) { save(mergeData(local, result.data)) }` block of
`fullSync`: a collection snapshot is merged and persisted only when the fetch
result carries data. -/
def applyFetch (localRecs : List Rec) (res : FetchResult) : List Rec :=
  match res.data with
  | some remoteRecs => mergeData localRecs remoteRecs
  | none => localRecs

/-- The four fetches `fullSync` starts (all four are issued together). -/
def fetchCalls : List RemoteCall :=
  [RemoteCall.fetch "medicines", RemoteCall.fetch "sales",
   RemoteCall.fetch "refunds", RemoteCall.fetch "expenses"]

/-- `syncService.fullSync` under fetch results `fm fs fr fx` and remote oracle
`ok`: a no-op when not configured; otherwise await the four fetches together,
and on success merge each collection that returned data, replay the queue, and
clear the offline flag; any rejection is caught, flags offline, and is
re-thrown before any merge happens. -/
def fullSync (cfg : Bool) (fm fs fr fx : Except String FetchResult)
    (ok : RemoteOp → Bool) (st : SyncState) : FullSyncResult :=
  if cfg then
    match promiseAll4 fm fs fr fx with
    | Except.error e => ⟨some e, fetchCalls, { st with offline := true }⟩
    | Except.ok (mr, sr, rr, xr) =>
      let st1 := { st with medicines := applyFetch st.medicines mr }
      let st2 := { st1 with sales := applyFetch st1.sales sr }
      let st3 := { st2 with refunds := applyFetch st2.refunds rr }
      let st4 := { st3 with expenses := applyFetch st3.expenses xr }
      let q := processQueue cfg ok st4.queue
      ⟨none, fetchCalls ++ q.calls.map RemoteCall.op,
        { st4 with queue := q.store, offline := false }⟩
  else ⟨none, [], st⟩

/-- `syncService.syncMedicines` / `syncSales` / `syncRefunds` / `syncExpenses`
share this shape: a no-op when not configured, otherwise one bulk upsert whose
error, if any, is thrown. -/
def syncCollection (cfg : Bool) (ok : RemoteOp → Bool) (table : String)
    (records : List Rec) : List RemoteCall × Except String Unit :=
  if cfg then
    ([RemoteCall.op (RemoteOp.upsert table records)],
      if ok (RemoteOp.upsert table records) then Except.ok ()
      else Except.error "upsert error")
  else ([], Except.ok ())

/-- `syncService.syncMedicines`. -/
def syncMedicines (cfg : Bool) (ok : RemoteOp → Bool) (records : List Rec) :
    List RemoteCall × Except String Unit :=
  syncCollection cfg ok "medicines" records

/-- `syncService.syncSales`. -/
def syncSales (cfg : Bool) (ok : RemoteOp → Bool) (records : List Rec) :
    List RemoteCall × Except String Unit :=
  syncCollection cfg ok "sales" records

/-- `syncService.syncRefunds`. -/
def syncRefunds (cfg : Bool) (ok : RemoteOp → Bool) (records : List Rec) :
    List RemoteCall × Except String Unit :=
  syncCollection cfg ok "refunds" records

/-- `syncService.syncExpenses`. -/
def syncExpenses (cfg : Bool) (ok : RemoteOp → Bool) (records : List Rec) :
    List RemoteCall × Except String Unit :=
  syncCollection cfg ok "expenses" records

/-- Every stored value of a record map is keyed by its own id. -/
def EntriesWF (m : List (String × Rec)) : Prop :=
  ∀ p ∈ m, p.2.id = p.1

/-- Insertion-order key accumulation: starting from the keys `ks` already in a
map, the key list after setting a sequence of ids in order. -/
def foldKeys (ks : List String) (ids : List String) : List String :=
  ids.foldl (fun acc i => if i ∈ acc then acc else acc ++ [i]) ks

/-- Sample record: id `a`, updated at 5. -/
def recA : Rec := ⟨"a", some 5, "c1", "p1"⟩

/-- Sample record: id `a`, updated at 3. -/
def recA2 : Rec := ⟨"a", some 3, "c2", "p2"⟩

/-- Sample record: id `b`, never updated. -/
def recB : Rec := ⟨"b", none, "c3", "p3"⟩

/-- Sample queued action with a recognized `create` action. -/
def actCreate : QueuedAction := ⟨"q1", "medicine", "create", recA, "t1"⟩

/-- Sample queued action with an unrecognized action string. -/
def actNoop : QueuedAction := ⟨"q2", "sale", "noop", recB, "t2"⟩

/-- Sample audit log entry. -/
def logEntry1 : AuditLog := ⟨"l1", "u1", "alice", "act", EntityType.medicine, "e1", "d1", "t1"⟩

/-- Second sample audit log entry. -/
def logEntry2 : AuditLog := ⟨"l2", "u2", "bob", "act", EntityType.sale, "e2", "d2", "t2"⟩

/-- Remote oracle under which every operation succeeds. -/
def okAll : RemoteOp → Bool := fun _ => true

/-- A successful fetch carrying an empty collection. -/
def fetchOkEmpty : Except String FetchResult := Except.ok ⟨some []⟩

/-- A rejected fetch. -/
def fetchErr : Except String FetchResult := Except.error "network"

/-- An empty local state. -/
def emptyState : SyncState := ⟨[], [], [], [], [], false⟩

/-! Basic lemmas about the map embedding. -/

theorem mapGet_cons (p : String × Rec) (m : List (String × Rec)) (k : String) :
    mapGet (p :: m) k = if p.1 = k then some p.2 else mapGet m k := by
  by_cases h : p.1 = k <;> simp [mapGet, List.find?_cons, h]

theorem mapGet_mapSet (m : List (String × Rec)) (k k' : String) (v : Rec) :
    mapGet (mapSet m k v) k' = if k' = k then some v else mapGet m k' := by
  induction m with
  | nil =>
    by_cases h : k' = k
    · subst h; simp [mapSet, mapGet_cons]
    · simp [mapSet, mapGet_cons, mapGet, h, Ne.symm h]
  | cons p m ih =>
    by_cases hp : p.1 = k
    · by_cases h : k' = k
      · subst h; simp [mapSet, hp, mapGet_cons]
      · simp [mapSet, hp, mapGet_cons, h, Ne.symm h]
    · by_cases h : k' = k
      · subst h; simp [mapSet, hp, mapGet_cons, ih]
      · simp [mapSet, hp, mapGet_cons, ih, h]

theorem keys_mapSet (m : List (String × Rec)) (k : String) (v : Rec) :
    keys (mapSet m k v) = if k ∈ keys m then keys m else keys m ++ [k] := by
  induction m with
  | nil => simp [mapSet, keys]
  | cons p m ih =>
    by_cases hp : p.1 = k
    · simp [mapSet, hp, keys]
    · have hcond : (k ∈ keys (p :: m)) ↔ k ∈ keys m := by
        simp [keys, Ne.symm hp]
      have hset : mapSet (p :: m) k v = p :: mapSet m k v := by simp [mapSet, hp]
      have hkeys : keys (p :: mapSet m k v) = p.1 :: keys (mapSet m k v) := rfl
      by_cases h : k ∈ keys m
      · rw [hset, hkeys, ih, if_pos h, if_pos (hcond.mpr h)]
        rfl
      · rw [hset, hkeys, ih, if_neg h, if_neg (fun hc => h (hcond.mp hc))]
        rfl

theorem mapGet_eq_none_iff (m : List (String × Rec)) (k : String) :
    mapGet m k = none ↔ k ∉ keys m := by
  induction m with
  | nil => simp [mapGet, keys]
  | cons p m ih =>
    by_cases h : p.1 = k
    · subst h; simp [mapGet_cons, keys]
    · simp [mapGet_cons, keys, h, ih, Ne.symm h]

/-! Well-formedness is preserved by the map operations. -/

theorem entriesWF_mapSet (m : List (String × Rec)) (k : String) (v : Rec)
    (hm : EntriesWF m) (hv : v.id = k) : EntriesWF (mapSet m k v) := by
  induction m with
  | nil =>
    intro p hp
    simp [mapSet] at hp
    subst hp
    simpa using hv
  | cons q m ih =>
    by_cases hq : q.1 = k
    · intro p hp
      simp only [mapSet, hq] at hp
      simp at hp
      rcases hp with h1 | h1
      · subst h1; simpa using hv
      · exact hm p (List.mem_cons_of_mem _ h1)
    · intro p hp
      simp only [mapSet] at hp
      rw [if_neg (by simp [hq])] at hp
      rcases List.mem_cons.mp hp with h1 | h1
      · subst h1; exact hm _ (List.mem_cons_self _ _)
      · exact ih (fun r hr => hm r (List.mem_cons_of_mem _ hr)) p h1

theorem keysNodup_mapSet (m : List (String × Rec)) (k : String) (v : Rec)
    (hm : (keys m).Nodup) : (keys (mapSet m k v)).Nodup := by
  rw [keys_mapSet]
  by_cases h : k ∈ keys m
  · simpa [h] using hm
  · simp [h, List.nodup_append, hm]

theorem mapGet_mergeStep (m : List (String × Rec)) (item : Rec) (k : String) :
    mapGet (mergeStep m item) k =
      if k = item.id then mergeDecide (mapGet m item.id) item else mapGet m k := by
  by_cases hk : k = item.id
  · subst hk
    cases hg : mapGet m item.id with
    | none => simp [mergeStep, mergeDecide, hg, mapGet_mapSet]
    | some r =>
      cases hiu : item.updatedAt with
      | none => simp [mergeStep, mergeDecide, hg, hiu]
      | some lu =>
        cases hru : r.updatedAt with
        | none => simp [mergeStep, mergeDecide, hg, hiu, hru]
        | some ru =>
          by_cases hlt : ru < lu <;>
            simp [mergeStep, mergeDecide, hg, hiu, hru, hlt, mapGet_mapSet]
  · cases hg : mapGet m item.id with
    | none => simp [mergeStep, hg, mapGet_mapSet, hk]
    | some r =>
      cases hiu : item.updatedAt with
      | none => simp [mergeStep, hg, hiu, hk]
      | some lu =>
        cases hru : r.updatedAt with
        | none => simp [mergeStep, hg, hiu, hru, hk]
        | some ru =>
          by_cases hlt : ru < lu <;>
            simp [mergeStep, hg, hiu, hru, hlt, mapGet_mapSet, hk]

theorem keys_mergeStep (m : List (String × Rec)) (item : Rec) :
    keys (mergeStep m item) =
      if item.id ∈ keys m then keys m else keys m ++ [item.id] := by
  cases hg : mapGet m item.id with
  | none =>
    have hk : item.id ∉ keys m := (mapGet_eq_none_iff m item.id).mp hg
    simp [mergeStep, hg, keys_mapSet, hk]
  | some r =>
    have hk : item.id ∈ keys m := by
      by_contra h
      have hnone := (mapGet_eq_none_iff m item.id).mpr h
      rw [hnone] at hg
      cases hg
    cases hiu : item.updatedAt with
    | none => simp [mergeStep, hg, hiu, hk]
    | some lu =>
      cases hru : r.updatedAt with
      | none => simp [mergeStep, hg, hiu, hru, hk]
      | some ru =>
        by_cases hlt : ru < lu <;>
          simp [mergeStep, hg, hiu, hru, hlt, keys_mapSet, hk]

theorem mergeStep_cases (m : List (String × Rec)) (item : Rec) :
    mergeStep m item = mapSet m item.id item ∨ mergeStep m item = m := by
  cases hg : mapGet m item.id with
  | none => exact Or.inl (by simp [mergeStep, hg])
  | some r =>
    cases hiu : item.updatedAt with
    | none => exact Or.inr (by simp [mergeStep, hg, hiu])
    | some lu =>
      cases hru : r.updatedAt with
      | none => exact Or.inr (by simp [mergeStep, hg, hiu, hru])
      | some ru =>
        by_cases h : ru < lu
        · exact Or.inl (by simp [mergeStep, hg, hiu, hru, h])
        · exact Or.inr (by simp [mergeStep, hg, hiu, hru, h])

theorem entriesWF_mergeStep (m : List (String × Rec)) (item : Rec)
    (hm : EntriesWF m) : EntriesWF (mergeStep m item) := by
  rcases mergeStep_cases m item with h | h
  · rw [h]; exact entriesWF_mapSet m item.id item hm rfl
  · rw [h]; exact hm

theorem keysNodup_mergeStep (m : List (String × Rec)) (item : Rec)
    (hm : (keys m).Nodup) : (keys (mergeStep m item)).Nodup := by
  rw [keys_mergeStep]
  by_cases h : item.id ∈ keys m
  · simpa [h] using hm
  · simp [h, List.nodup_append, hm]

/-! Lemmas about the folds that build the merged map. -/

theorem mapGet_foldl_mergeStep (xs : List Rec) : ∀ (m : List (String × Rec)) (k : String),
    mapGet (xs.foldl mergeStep m) k =
      (xs.filter (fun x => x.id == k)).foldl mergeDecide (mapGet m k) := by
  induction xs with
  | nil => intro m k; rfl
  | cons x xs ih =>
    intro m k
    rw [List.foldl_cons, ih, mapGet_mergeStep]
    by_cases h : x.id = k
    · rw [if_pos h.symm, List.filter_cons_of_pos (by simp [h]), List.foldl_cons, h]
    · rw [if_neg (fun hk => h hk.symm), List.filter_cons_of_neg (by simp [h])]

theorem mapGet_foldl_mergeStep_untouched (xs : List Rec) (m : List (String × Rec))
    (k : String) (hk : k ∉ xs.map Rec.id) :
    mapGet (xs.foldl mergeStep m) k = mapGet m k := by
  rw [mapGet_foldl_mergeStep]
  have hnil : xs.filter (fun x => x.id == k) = [] := by
    rw [List.filter_eq_nil_iff]
    intro a ha h
    simp at h
    exact hk (List.mem_map.mpr ⟨a, ha, h⟩)
  rw [hnil]
  rfl

theorem mapGet_foldl_mergeStep_of_mem (xs : List Rec) : ∀ (m : List (String × Rec)) (a : Rec),
    (xs.map Rec.id).Nodup → a ∈ xs →
    mapGet (xs.foldl mergeStep m) a.id = mergeDecide (mapGet m a.id) a := by
  induction xs with
  | nil => intro m a _ ha; cases ha
  | cons x xs ih =>
    intro m a hn ha
    have hn' : x.id ∉ xs.map Rec.id ∧ (xs.map Rec.id).Nodup := by
      rw [List.map_cons] at hn
      exact List.nodup_cons.mp hn
    rw [List.foldl_cons]
    rcases List.mem_cons.mp ha with h | h
    · subst h
      rw [mapGet_foldl_mergeStep_untouched xs _ _ hn'.1, mapGet_mergeStep, if_pos rfl]
    · have hne : a.id ≠ x.id := fun he => hn'.1 (he ▸ List.mem_map.mpr ⟨a, h, rfl⟩)
      rw [ih _ a hn'.2 h, mapGet_mergeStep, if_neg hne]

theorem mapGet_foldl_mapSet_untouched (xs : List Rec) : ∀ (m : List (String × Rec)) (k : String),
    k ∉ xs.map Rec.id →
    mapGet (xs.foldl (fun acc item => mapSet acc item.id item) m) k = mapGet m k := by
  induction xs with
  | nil => intro m k _; rfl
  | cons x xs ih =>
    intro m k hk
    have hk1 : k ∉ xs.map Rec.id := fun h => hk (List.mem_cons_of_mem _ (by simpa using h))
    have hk2 : k ≠ x.id := fun h => hk (by rw [List.map_cons, h]; exact List.mem_cons_self _ _)
    rw [List.foldl_cons, ih _ _ (by simpa using hk1), mapGet_mapSet, if_neg hk2]

theorem mapGet_seed_of_nodup (xs : List Rec) : ∀ (m : List (String × Rec)) (r : Rec),
    (xs.map Rec.id).Nodup → r ∈ xs →
    mapGet (xs.foldl (fun acc item => mapSet acc item.id item) m) r.id = some r := by
  induction xs with
  | nil => intro m r _ hr; cases hr
  | cons x xs ih =>
    intro m r hn hr
    have hn' : x.id ∉ xs.map Rec.id ∧ (xs.map Rec.id).Nodup := by
      rw [List.map_cons] at hn
      exact List.nodup_cons.mp hn
    rw [List.foldl_cons]
    rcases List.mem_cons.mp hr with h | h
    · subst h
      rw [mapGet_foldl_mapSet_untouched xs _ _ hn'.1, mapGet_mapSet, if_pos rfl]
    · exact ih _ r hn'.2 h

theorem keys_foldl_mergeStep (xs : List Rec) : ∀ (m : List (String × Rec)),
    keys (xs.foldl mergeStep m) = foldKeys (keys m) (xs.map Rec.id) := by
  induction xs with
  | nil => intro m; rfl
  | cons x xs ih =>
    intro m
    rw [List.foldl_cons, ih, keys_mergeStep, List.map_cons]
    rfl

theorem keys_foldl_mapSet (xs : List Rec) : ∀ (m : List (String × Rec)),
    keys (xs.foldl (fun acc item => mapSet acc item.id item) m) =
      foldKeys (keys m) (xs.map Rec.id) := by
  induction xs with
  | nil => intro m; rfl
  | cons x xs ih =>
    intro m
    rw [List.foldl_cons, ih, keys_mapSet, List.map_cons]
    rfl

theorem mem_foldKeys (ids : List String) : ∀ (ks : List String) (k : String),
    k ∈ foldKeys ks ids ↔ k ∈ ks ∨ k ∈ ids := by
  induction ids with
  | nil => intro ks k; simp [foldKeys]
  | cons i ids ih =>
    intro ks k
    have hcons : foldKeys ks (i :: ids) = foldKeys (if i ∈ ks then ks else ks ++ [i]) ids := rfl
    rw [hcons]
    by_cases h : i ∈ ks
    · rw [if_pos h, ih]
      simp only [List.mem_cons]
      constructor
      · rintro (hk | hk)
        · exact Or.inl hk
        · exact Or.inr (Or.inr hk)
      · rintro (hk | hk | hk)
        · exact Or.inl hk
        · exact Or.inl (hk ▸ h)
        · exact Or.inr hk
    · rw [if_neg h, ih]
      simp [or_assoc]

theorem foldKeys_nodup (ids : List String) : ∀ ks : List String,
    ks.Nodup → (foldKeys ks ids).Nodup := by
  induction ids with
  | nil => intro ks h; exact h
  | cons i ids ih =>
    intro ks h
    have hcons : foldKeys ks (i :: ids) = foldKeys (if i ∈ ks then ks else ks ++ [i]) ids := rfl
    rw [hcons]
    by_cases hi : i ∈ ks
    · rw [if_pos hi]; exact ih ks h
    · rw [if_neg hi]
      exact ih _ (by simp [List.nodup_append, h, hi])

theorem foldKeys_extends (ids : List String) : ∀ ks : List String,
    ∃ t, foldKeys ks ids = ks ++ t := by
  induction ids with
  | nil => intro ks; exact ⟨[], by simp [foldKeys]⟩
  | cons i ids ih =>
    intro ks
    have hcons : foldKeys ks (i :: ids) = foldKeys (if i ∈ ks then ks else ks ++ [i]) ids := rfl
    rw [hcons]
    by_cases hi : i ∈ ks
    · rw [if_pos hi]; exact ih ks
    · rw [if_neg hi]
      obtain ⟨t, ht⟩ := ih (ks ++ [i])
      exact ⟨[i] ++ t, by rw [ht, List.append_assoc]⟩

theorem foldKeys_of_subset (ids : List String) : ∀ ks : List String,
    (∀ i ∈ ids, i ∈ ks) → foldKeys ks ids = ks := by
  induction ids with
  | nil => intro ks _; rfl
  | cons i ids ih =>
    intro ks h
    have hcons : foldKeys ks (i :: ids) = foldKeys (if i ∈ ks then ks else ks ++ [i]) ids := rfl
    rw [hcons, if_pos (h i (List.mem_cons_self _ _))]
    exact ih ks (fun j hj => h j (List.mem_cons_of_mem _ hj))

theorem foldKeys_of_fresh (t : List String) : ∀ ks : List String,
    t.Nodup → (∀ i ∈ t, i ∉ ks) → foldKeys ks t = ks ++ t := by
  induction t with
  | nil => intro ks _ _; simp [foldKeys]
  | cons i t ih =>
    intro ks hn hf
    have hn' := List.nodup_cons.mp hn
    have hcons : foldKeys ks (i :: t) = foldKeys (if i ∈ ks then ks else ks ++ [i]) t := rfl
    rw [hcons, if_neg (hf i (List.mem_cons_self _ _))]
    rw [ih (ks ++ [i]) hn'.2 (fun j hj hmem => by
      rcases List.mem_append.mp hmem with h1 | h1
      · exact hf j (List.mem_cons_of_mem _ hj) h1
      · exact hn'.1 ((List.mem_singleton.mp h1) ▸ hj))]
    simp

theorem foldKeys_append_self (ks t : List String) (hall : (ks ++ t).Nodup) :
    foldKeys ks (ks ++ t) = ks ++ t := by
  have hsplit := List.nodup_append.mp hall
  have h1 : foldKeys ks (ks ++ t) = foldKeys (foldKeys ks ks) t := by
    simp [foldKeys, List.foldl_append]
  rw [h1, foldKeys_of_subset ks ks (fun i hi => hi)]
  exact foldKeys_of_fresh t ks hsplit.2.1 (fun i hi hin => hsplit.2.2 hin hi)

/-! Well-formedness of the seeded and merged maps, and value-level lookups. -/

theorem entriesWF_foldl_mapSet (xs : List Rec) : ∀ m, EntriesWF m →
    EntriesWF (xs.foldl (fun acc item => mapSet acc item.id item) m) := by
  induction xs with
  | nil => intro m hm; exact hm
  | cons x xs ih =>
    intro m hm
    exact ih _ (entriesWF_mapSet m x.id x hm rfl)

theorem keysNodup_foldl_mapSet (xs : List Rec) : ∀ m, (keys m).Nodup →
    (keys (xs.foldl (fun acc item => mapSet acc item.id item) m)).Nodup := by
  induction xs with
  | nil => intro m hm; exact hm
  | cons x xs ih =>
    intro m hm
    exact ih _ (keysNodup_mapSet m x.id x hm)

theorem entriesWF_foldl_mergeStep (xs : List Rec) : ∀ m, EntriesWF m →
    EntriesWF (xs.foldl mergeStep m) := by
  induction xs with
  | nil => intro m hm; exact hm
  | cons x xs ih =>
    intro m hm
    exact ih _ (entriesWF_mergeStep m x hm)

theorem keysNodup_foldl_mergeStep (xs : List Rec) : ∀ m, (keys m).Nodup →
    (keys (xs.foldl mergeStep m)).Nodup := by
  induction xs with
  | nil => intro m hm; exact hm
  | cons x xs ih =>
    intro m hm
    exact ih _ (keysNodup_mergeStep m x hm)

theorem entriesWF_seedRemote (remote : List Rec) : EntriesWF (seedRemote remote) :=
  entriesWF_foldl_mapSet remote [] (fun p hp => absurd hp (List.not_mem_nil p))

theorem keysNodup_seedRemote (remote : List Rec) : (keys (seedRemote remote)).Nodup :=
  keysNodup_foldl_mapSet remote [] (by simp [keys])

theorem entriesWF_buildMerged (localRecs remote : List Rec) :
    EntriesWF (buildMerged localRecs remote) :=
  entriesWF_foldl_mergeStep localRecs _ (entriesWF_seedRemote remote)

theorem keysNodup_buildMerged (localRecs remote : List Rec) :
    (keys (buildMerged localRecs remote)).Nodup :=
  keysNodup_foldl_mergeStep localRecs _ (keysNodup_seedRemote remote)

theorem find?_values (m : List (String × Rec)) (k : String) (hm : EntriesWF m) :
    (m.map Prod.snd).find? (fun x => x.id == k) = mapGet m k := by
  induction m with
  | nil => rfl
  | cons p m ih =>
    have hp : p.2.id = p.1 := hm p (List.mem_cons_self _ _)
    rw [List.map_cons]
    by_cases h : p.1 = k
    · rw [List.find?_cons_of_pos _ (by simp [hp, h]), mapGet_cons, if_pos h]
    · rw [List.find?_cons_of_neg _ (by simp [hp, h]), mapGet_cons, if_neg h,
        ih (fun q hq => hm q (List.mem_cons_of_mem _ hq))]

theorem mapGet_mem_values (m : List (String × Rec)) (k : String) (v : Rec)
    (h : mapGet m k = some v) : v ∈ m.map Prod.snd := by
  unfold mapGet at h
  cases hf : m.find? (fun p => p.1 == k) with
  | none => rw [hf] at h; cases h
  | some p =>
    rw [hf] at h
    simp at h
    exact List.mem_map.mpr ⟨p, List.mem_of_find?_eq_some hf, h⟩

/-! The winner of a chain of merge decisions beats the seeded record. -/

/-- `v` is an acceptable final winner over an initial record `s`: either the
initial record itself, or a record with a strictly later timestamp (both
present). -/
def Beats (v s : Rec) : Prop :=
  v = s ∨ ∃ ts tv, s.updatedAt = some ts ∧ v.updatedAt = some tv ∧ ts < tv

theorem mergeDecide_some_cases (s item : Rec) :
    mergeDecide (some s) item = some s ∨
      (mergeDecide (some s) item = some item ∧
        ∃ ts ti, s.updatedAt = some ts ∧ item.updatedAt = some ti ∧ ts < ti) := by
  cases hiu : item.updatedAt with
  | none => exact Or.inl (by simp [mergeDecide, hiu])
  | some ti =>
    cases hsu : s.updatedAt with
    | none => exact Or.inl (by simp [mergeDecide, hiu, hsu])
    | some ts =>
      by_cases h : ts < ti
      · exact Or.inr ⟨by simp [mergeDecide, hiu, hsu, h], ts, ti, rfl, rfl, h⟩
      · exact Or.inl (by simp [mergeDecide, hiu, hsu, h])

theorem foldl_mergeDecide_some (items : List Rec) : ∀ (s v : Rec),
    items.foldl mergeDecide (some s) = some v → Beats v s := by
  induction items with
  | nil =>
    intro s v h
    simp at h
    exact Or.inl h.symm
  | cons item items ih =>
    intro s v h
    rw [List.foldl_cons] at h
    rcases mergeDecide_some_cases s item with hc | ⟨hc, ts, ti, hs, hi, hlt⟩
    · rw [hc] at h
      exact ih s v h
    · rw [hc] at h
      rcases ih item v h with h1 | ⟨ta, tb, ha, hb, hab⟩
      · exact Or.inr ⟨ts, ti, hs, h1 ▸ hi, hlt⟩
      · rw [hi] at ha
        cases ha
        exact Or.inr ⟨ts, tb, hs, hb, lt_trans hlt hab⟩

theorem beats_mergeDecide (s v : Rec) (h : Beats v s) :
    mergeDecide (some s) v = some v := by
  rcases h with h | ⟨ts, tv, hs, hv, hlt⟩
  · subst h
    cases hsu : v.updatedAt with
    | none => simp [mergeDecide, hsu]
    | some t => simp [mergeDecide, hsu]
  · simp [mergeDecide, hs, hv, hlt]

theorem mapGet_id_eq (m : List (String × Rec)) (k : String) (v : Rec)
    (hwf : EntriesWF m) (h : mapGet m k = some v) : v.id = k := by
  unfold mapGet at h
  cases hf : m.find? (fun p => p.1 == k) with
  | none => rw [hf] at h; cases h
  | some p =>
    rw [hf] at h
    simp at h
    have hp1 : p.1 = k := by simpa using List.find?_some hf
    rw [← h, hwf p (List.mem_of_find?_eq_some hf), hp1]

/-! Extensionality for well-formed maps with equal ordered key lists. -/

theorem assoc_ext (a : List (String × Rec)) : ∀ b : List (String × Rec),
    EntriesWF a → EntriesWF b → (keys a).Nodup → keys a = keys b →
    (∀ k, mapGet a k = mapGet b k) → a = b := by
  induction a with
  | nil =>
    intro b _ _ _ hk _
    cases b with
    | nil => rfl
    | cons q b => cases hk
  | cons p a ih =>
    intro b hwa hwb hn hk hg
    cases b with
    | nil => cases hk
    | cons q b =>
      have hcc : p.1 :: keys a = q.1 :: keys b := hk
      injection hcc with h1 h2
      have hn2 : (p.1 :: keys a).Nodup := hn
      have hn' := List.nodup_cons.mp hn2
      have hv : p.2 = q.2 := by
        have hgp := hg p.1
        rw [mapGet_cons, if_pos rfl, mapGet_cons, if_pos h1.symm] at hgp
        exact Option.some.inj hgp
      have heq : p = q := Prod.ext h1 hv
      rw [heq]
      congr 1
      apply ih b (fun s hs => hwa s (List.mem_cons_of_mem _ hs))
        (fun s hs => hwb s (List.mem_cons_of_mem _ hs)) hn'.2 h2
      intro k
      by_cases hkp : k = p.1
      · have ha1 : k ∉ keys a := hkp.symm ▸ hn'.1
        have hb1 : k ∉ keys b := hkp.symm ▸ (h2 ▸ hn'.1)
        rw [(mapGet_eq_none_iff a k).mpr ha1, (mapGet_eq_none_iff b k).mpr hb1]
      · have hgk := hg k
        rw [mapGet_cons, if_neg (fun hh => hkp hh.symm), mapGet_cons,
          if_neg (fun hh => hkp (hh.symm.trans h1.symm))] at hgk
        exact hgk

/-! Id-level facts about the merged output. -/

theorem mergeData_map_id (localRecs remote : List Rec) :
    (mergeData localRecs remote).map Rec.id = keys (buildMerged localRecs remote) := by
  unfold mergeData
  rw [List.map_map]
  exact List.map_congr_left (fun p hp => entriesWF_buildMerged localRecs remote p hp)

theorem mem_keys_seedRemote (remote : List Rec) (k : String) :
    k ∈ keys (seedRemote remote) ↔ k ∈ remote.map Rec.id := by
  unfold seedRemote
  rw [keys_foldl_mapSet, mem_foldKeys]
  simp [keys]

/-- C5: for all local and remote inputs, the output of `mergeData` never
contains two records sharing an id, and the set of ids in the output equals the
union of the id sets of the two inputs. -/
theorem mergeData_id_partition (localRecs remote : List Rec) :
    ((mergeData localRecs remote).map Rec.id).Nodup ∧
    ∀ k, k ∈ (mergeData localRecs remote).map Rec.id ↔
      k ∈ localRecs.map Rec.id ∨ k ∈ remote.map Rec.id := by
  constructor
  · rw [mergeData_map_id]
    exact keysNodup_buildMerged localRecs remote
  · intro k
    rw [mergeData_map_id]
    have hb : keys (buildMerged localRecs remote) =
        foldKeys (keys (seedRemote remote)) (localRecs.map Rec.id) :=
      keys_foldl_mergeStep localRecs (seedRemote remote)
    rw [hb, mem_foldKeys, mem_keys_seedRemote]
    tauto

/-- C4: for an id present in both inputs of `mergeData` (inputs with unique
ids), the merged record at that id is the strictly later of the two when both
carry `updatedAt` (ties keeping the remote record), and the remote record
whenever either side lacks `updatedAt`. -/
theorem mergeData_conflict (localRecs remote : List Rec)
    (hl : (localRecs.map Rec.id).Nodup) (hr : (remote.map Rec.id).Nodup)
    (l r : Rec) (hlmem : l ∈ localRecs) (hrmem : r ∈ remote) (hid : l.id = r.id) :
    (mergeData localRecs remote).find? (fun x => x.id == l.id) =
      some (match l.updatedAt, r.updatedAt with
            | some lu, some ru => if ru < lu then l else r
            | _, _ => r) := by
  unfold mergeData
  rw [find?_values _ _ (entriesWF_buildMerged localRecs remote)]
  have hstep : mapGet (buildMerged localRecs remote) l.id =
      mergeDecide (mapGet (seedRemote remote) l.id) l :=
    mapGet_foldl_mergeStep_of_mem localRecs (seedRemote remote) l hl hlmem
  have hseed : mapGet (seedRemote remote) l.id = some r := by
    rw [hid]
    exact mapGet_seed_of_nodup remote [] r hr hrmem
  rw [hstep, hseed]
  cases hlu : l.updatedAt with
  | none => simp [mergeDecide, hlu]
  | some lu =>
    cases hru : r.updatedAt with
    | none => simp [mergeDecide, hlu, hru]
    | some ru =>
      by_cases h : ru < lu <;> simp [mergeDecide, hlu, hru, h]

/-- C4 witness: concrete two-sided merge where the local record carries the
strictly later timestamp. -/
theorem mergeData_conflict_witness :
    ([recA].map Rec.id).Nodup ∧ ([recA2].map Rec.id).Nodup ∧
    recA ∈ [recA] ∧ recA2 ∈ [recA2] ∧ recA.id = recA2.id ∧
    (mergeData [recA] [recA2]).find? (fun x => x.id == recA.id) =
      some (match recA.updatedAt, recA2.updatedAt with
            | some lu, some ru => if ru < lu then recA else recA2
            | _, _ => recA2) :=
  ⟨by decide, by decide, by decide, by decide, by decide,
   mergeData_conflict [recA] [recA2] (by decide) (by decide) recA recA2
     (by decide) (by decide) (by decide)⟩

/-- C7: a record whose id occurs in exactly one input of `mergeData` (inputs
with unique ids) survives the merge unchanged as the merged record at its id:
both for local-only records and for remote-only records. -/
theorem mergeData_exclusive (localRecs remote : List Rec)
    (hl : (localRecs.map Rec.id).Nodup) (hr : (remote.map Rec.id).Nodup) :
    (∀ l ∈ localRecs, l.id ∉ remote.map Rec.id →
      (mergeData localRecs remote).find? (fun x => x.id == l.id) = some l) ∧
    (∀ r ∈ remote, r.id ∉ localRecs.map Rec.id →
      (mergeData localRecs remote).find? (fun x => x.id == r.id) = some r) := by
  constructor
  · intro l hlmem hnr
    unfold mergeData
    rw [find?_values _ _ (entriesWF_buildMerged localRecs remote)]
    have hstep : mapGet (buildMerged localRecs remote) l.id =
        mergeDecide (mapGet (seedRemote remote) l.id) l :=
      mapGet_foldl_mergeStep_of_mem localRecs (seedRemote remote) l hl hlmem
    have hseed : mapGet (seedRemote remote) l.id = none := by
      rw [mapGet_eq_none_iff, mem_keys_seedRemote]
      exact hnr
    rw [hstep, hseed]
    rfl
  · intro r hrmem hnl
    unfold mergeData
    rw [find?_values _ _ (entriesWF_buildMerged localRecs remote)]
    have huntouched : mapGet (buildMerged localRecs remote) r.id =
        mapGet (seedRemote remote) r.id :=
      mapGet_foldl_mergeStep_untouched localRecs (seedRemote remote) r.id hnl
    rw [huntouched]
    exact mapGet_seed_of_nodup remote [] r hr hrmem

/-- C7 witness: a local-only record with id `b` and a remote-only record with
id `a` both survive a concrete merge unchanged. -/
theorem mergeData_exclusive_witness :
    ([recB].map Rec.id).Nodup ∧ ([recA2].map Rec.id).Nodup ∧
    recB.id ∉ [recA2].map Rec.id ∧ recA2.id ∉ [recB].map Rec.id ∧
    (mergeData [recB] [recA2]).find? (fun x => x.id == recB.id) = some recB ∧
    (mergeData [recB] [recA2]).find? (fun x => x.id == recA2.id) = some recA2 :=
  ⟨by decide, by decide, by decide, by decide,
   (mergeData_exclusive [recB] [recA2] (by decide) (by decide)).1 recB
     (by decide) (by decide),
   (mergeData_exclusive [recB] [recA2] (by decide) (by decide)).2 recA2
     (by decide) (by decide)⟩

/-- C6: `mergeData` is idempotent with respect to the remote input: merging
the merged output once more with the same remote snapshot returns the merged
output unchanged. -/
theorem mergeData_idempotent (localRecs remote : List Rec) :
    mergeData (mergeData localRecs remote) remote = mergeData localRecs remote := by
  have hwfB : EntriesWF (buildMerged localRecs remote) :=
    entriesWF_buildMerged localRecs remote
  have hndB : (keys (buildMerged localRecs remote)).Nodup :=
    keysNodup_buildMerged localRecs remote
  have hMids : (mergeData localRecs remote).map Rec.id =
      keys (buildMerged localRecs remote) :=
    mergeData_map_id localRecs remote
  have hMnd : ((mergeData localRecs remote).map Rec.id).Nodup := by
    rw [hMids]; exact hndB
  have hkeysB : keys (buildMerged localRecs remote) =
      foldKeys (keys (seedRemote remote)) (localRecs.map Rec.id) :=
    keys_foldl_mergeStep localRecs (seedRemote remote)
  have hk2 : keys (buildMerged (mergeData localRecs remote) remote) =
      keys (buildMerged localRecs remote) := by
    have h1 : keys (buildMerged (mergeData localRecs remote) remote) =
        foldKeys (keys (seedRemote remote)) ((mergeData localRecs remote).map Rec.id) :=
      keys_foldl_mergeStep (mergeData localRecs remote) (seedRemote remote)
    rw [h1, hMids]
    obtain ⟨t, ht⟩ := foldKeys_extends (localRecs.map Rec.id) (keys (seedRemote remote))
    have hBt : keys (buildMerged localRecs remote) = keys (seedRemote remote) ++ t := by
      rw [hkeysB]; exact ht
    rw [hBt]
    exact foldKeys_append_self _ _ (by rw [← hBt]; exact hndB)
  have hget : ∀ k, mapGet (buildMerged (mergeData localRecs remote) remote) k =
      mapGet (buildMerged localRecs remote) k := by
    intro k
    by_cases hkB : k ∈ keys (buildMerged localRecs remote)
    · obtain ⟨v, hv⟩ : ∃ v, mapGet (buildMerged localRecs remote) k = some v := by
        cases ho : mapGet (buildMerged localRecs remote) k with
        | none => exact absurd hkB ((mapGet_eq_none_iff _ _).mp ho)
        | some v => exact ⟨v, rfl⟩
      have hvid : v.id = k := mapGet_id_eq _ _ _ hwfB hv
      have hvM : v ∈ mergeData localRecs remote := mapGet_mem_values _ _ _ hv
      have hstep : mapGet ((mergeData localRecs remote).foldl mergeStep (seedRemote remote)) v.id
          = mergeDecide (mapGet (seedRemote remote) v.id) v :=
        mapGet_foldl_mergeStep_of_mem (mergeData localRecs remote) (seedRemote remote) v hMnd hvM
      rw [← hvid] at hv ⊢
      rw [hv]
      have hgoal : mapGet (buildMerged (mergeData localRecs remote) remote) v.id =
          mergeDecide (mapGet (seedRemote remote) v.id) v := hstep
      rw [hgoal]
      cases hs : mapGet (seedRemote remote) v.id with
      | none => rfl
      | some s0 =>
        have hfold : (localRecs.filter (fun x => x.id == v.id)).foldl mergeDecide (some s0)
            = some v := by
          have hchar := mapGet_foldl_mergeStep localRecs (seedRemote remote) v.id
          rw [hs] at hchar
          rw [← hchar]
          exact hv
        exact beats_mergeDecide s0 v (foldl_mergeDecide_some _ s0 v hfold)
    · have h1 : mapGet (buildMerged localRecs remote) k = none :=
        (mapGet_eq_none_iff _ _).mpr hkB
      have h2 : mapGet (buildMerged (mergeData localRecs remote) remote) k = none :=
        (mapGet_eq_none_iff _ _).mpr (by rw [hk2]; exact hkB)
      rw [h1, h2]
  have hb : buildMerged (mergeData localRecs remote) remote = buildMerged localRecs remote :=
    assoc_ext _ _ (entriesWF_buildMerged _ _) hwfB
      (keysNodup_buildMerged _ _) hk2 hget
  show (buildMerged (mergeData localRecs remote) remote).map Prod.snd =
    (buildMerged localRecs remote).map Prod.snd
  rw [hb]

/-! Queue replay lemmas. -/

theorem foldl_queueStep_attempts (ok : RemoteOp → Bool) (xs : List QueuedAction) :
    ∀ r : QueueResult, (xs.foldl (queueStep ok) r).attempts = r.attempts ++ xs := by
  induction xs with
  | nil => intro r; simp
  | cons x xs ih =>
    intro r
    rw [List.foldl_cons, ih]
    simp [queueStep]

theorem mem_store_foldl_queueStep (ok : RemoteOp → Bool) (xs : List QueuedAction) :
    ∀ (r : QueueResult) (a : QueuedAction),
    a ∈ (xs.foldl (queueStep ok) r).store ↔
      a ∈ r.store ∧ ∀ x ∈ xs, (processQueuedAction ok x).2 = true → x.id ≠ a.id := by
  induction xs with
  | nil => intro r a; simp
  | cons x xs ih =>
    intro r a
    rw [List.foldl_cons, ih]
    have hstore : (queueStep ok r x).store =
        if (processQueuedAction ok x).2 then queueRemove r.store x.id else r.store := rfl
    by_cases hx : (processQueuedAction ok x).2 = true
    · rw [hstore, if_pos hx]
      constructor
      · rintro ⟨hmem, hall⟩
        have hm := List.mem_filter.mp hmem
        have hne : x.id ≠ a.id := by
          intro he
          have hb := hm.2
          simp [he] at hb
        refine ⟨hm.1, fun y hy => ?_⟩
        rcases List.mem_cons.mp hy with hy1 | hy1
        · intro _
          rw [hy1]
          exact hne
        · exact hall y hy1
      · rintro ⟨hmem, hall⟩
        have hne := hall x (List.mem_cons_self _ _) hx
        refine ⟨List.mem_filter.mpr ⟨hmem, ?_⟩,
          fun y hy => hall y (List.mem_cons_of_mem _ hy)⟩
        simp [Ne.symm hne]
    · rw [hstore, if_neg hx]
      constructor
      · rintro ⟨hmem, hall⟩
        refine ⟨hmem, fun y hy => ?_⟩
        rcases List.mem_cons.mp hy with hy1 | hy1
        · intro hsucc
          exact absurd (hy1 ▸ hsucc) hx
        · exact hall y hy1
      · rintro ⟨hmem, hall⟩
        exact ⟨hmem, fun y hy => hall y (List.mem_cons_of_mem _ hy)⟩

theorem processQueue_eq_foldl (ok : RemoteOp → Bool) (store : List QueuedAction) :
    processQueue true ok store = store.foldl (queueStep ok) ⟨[], [], store⟩ := by
  simp [processQueue]

/-- C3: a `processQueue` pass attempts every queued action exactly once, in
insertion order, for every outcome oracle: a failing action never stops the
pass, so all subsequent actions are still attempted. -/
theorem processQueue_in_order (ok : RemoteOp → Bool) (store : List QueuedAction) :
    (processQueue true ok store).attempts = store := by
  rw [processQueue_eq_foldl, foldl_queueStep_attempts]
  rfl

/-- C2: for a queued action with a recognized create/update/delete action (in
a queue whose action ids are unique), the action is gone from the store after
the pass exactly when its remote operation succeeds, and remains queued when
that operation fails. -/
theorem processQueue_remove_iff (ok : RemoteOp → Bool) (store : List QueuedAction)
    (hnd : (store.map QueuedAction.id).Nodup)
    (a : QueuedAction) (ha : a ∈ store) (op : RemoteOp) (hop : remoteOpFor a = some op) :
    (a ∉ (processQueue true ok store).store ↔ ok op = true) := by
  rw [processQueue_eq_foldl, mem_store_foldl_queueStep]
  have hsucc : (processQueuedAction ok a).2 = ok op := by
    simp [processQueuedAction, hop]
  constructor
  · intro hnot
    by_contra hok
    apply hnot
    refine ⟨ha, fun y hy hsy => ?_⟩
    intro he
    have hya : y = a := List.inj_on_of_nodup_map hnd hy ha he
    rw [hya, hsucc] at hsy
    exact hok hsy
  · intro hok hmem
    obtain ⟨hmem1, hall⟩ := hmem
    exact hall a ha (by rw [hsucc]; exact hok) rfl

/-- C2 witness: a concrete create action under an all-succeeding oracle is
removed from the queue by the pass. -/
theorem processQueue_remove_iff_witness :
    ([actCreate].map QueuedAction.id).Nodup ∧ actCreate ∈ [actCreate] ∧
    remoteOpFor actCreate = some (RemoteOp.insert "medicines" recA) ∧
    (actCreate ∉ (processQueue true okAll [actCreate]).store ↔
      okAll (RemoteOp.insert "medicines" recA) = true) :=
  ⟨by decide, by decide, by decide,
   processQueue_remove_iff okAll [actCreate] (by decide) actCreate (by decide)
     (RemoteOp.insert "medicines" recA) (by decide)⟩

/-- C10: a queued action whose action string is none of create, update and
delete issues no remote call, resolves successfully, and is removed from the
queue by the pass. -/
theorem processQueue_unknown_action (ok : RemoteOp → Bool) (store : List QueuedAction)
    (a : QueuedAction) (ha : a ∈ store)
    (h1 : a.action ≠ "create") (h2 : a.action ≠ "update") (h3 : a.action ≠ "delete") :
    remoteOpFor a = none ∧ processQueuedAction ok a = ([], true) ∧
    a ∉ (processQueue true ok store).store := by
  have hop : remoteOpFor a = none := by simp [remoteOpFor, h1, h2, h3]
  refine ⟨hop, by simp [processQueuedAction, hop], ?_⟩
  rw [processQueue_eq_foldl, mem_store_foldl_queueStep]
  rintro ⟨hmem, hall⟩
  exact hall a ha (by simp [processQueuedAction, hop]) rfl

/-- C10 witness: a concrete action with the unrecognized action string `noop`
is removed without any remote call, under any oracle (here the all-failing
oracle, showing no remote outcome is even consulted). -/
theorem processQueue_unknown_action_witness :
    actNoop ∈ [actNoop] ∧ actNoop.action ≠ "create" ∧ actNoop.action ≠ "update" ∧
    actNoop.action ≠ "delete" ∧
    (remoteOpFor actNoop = none ∧
      processQueuedAction (fun _ => false) actNoop = ([], true) ∧
      actNoop ∉ (processQueue true (fun _ => false) [actNoop]).store) :=
  ⟨by decide, by decide, by decide, by decide,
   processQueue_unknown_action (fun _ => false) [actNoop] actNoop
     (by decide) (by decide) (by decide) (by decide)⟩

/-- C9: the audit log is bounded by 1000 entries: `add` appends and evicts the
oldest entries first, so the stored length is `min (n + 1) 1000`, and adding to
a full 1000-entry log drops exactly the first entry (entry 2 becomes the
oldest retained). -/
theorem auditLogAdd_bounded (logs : List AuditLog) (log : AuditLog) :
    (auditLogAdd logs log).length = min (logs.length + 1) 1000 ∧
    (logs.length = 1000 → auditLogAdd logs log = logs.drop 1 ++ [log]) := by
  constructor
  · simp only [auditLogAdd]
    by_cases h : 1000 < logs.length + 1
    · rw [if_pos (by simpa using h)]
      simp
      omega
    · rw [if_neg (by simpa using h)]
      simp
      omega
  · intro h
    simp only [auditLogAdd]
    rw [if_pos (by simp [h])]
    have hlen : (logs ++ [log]).length - 1000 = 1 := by simp [h]
    rw [hlen, List.drop_append_of_le_length (by omega)]

/-- C9 witness: adding entry number 1001 to a full log of 1000 entries keeps
the length at 1000 and drops exactly the first entry. -/
theorem auditLogAdd_bounded_witness :
    (List.replicate 1000 logEntry1).length = 1000 ∧
    auditLogAdd (List.replicate 1000 logEntry1) logEntry2 =
      (List.replicate 1000 logEntry1).drop 1 ++ [logEntry2] :=
  ⟨List.length_replicate 1000 logEntry1,
   (auditLogAdd_bounded (List.replicate 1000 logEntry1) logEntry2).2
     (List.length_replicate 1000 logEntry1)⟩

/-- C1: with the gateway configured, `fullSync` is all-or-nothing over the
four fetches: any rejected fetch makes the whole call re-surface an error,
leave every collection snapshot and the queue untouched, and set the
connectivity flag offline; when all four fetches resolve, no error is
surfaced and the connectivity flag is set online. -/
theorem fullSync_all_or_nothing (fm fs fr fx : Except String FetchResult)
    (ok : RemoteOp → Bool) (st : SyncState) :
    (((∃ e, fm = Except.error e) ∨ (∃ e, fs = Except.error e) ∨
        (∃ e, fr = Except.error e) ∨ (∃ e, fx = Except.error e)) →
      ∃ e, fullSync true fm fs fr fx ok st =
        ⟨some e, fetchCalls, { st with offline := true }⟩) ∧
    (((∃ a, fm = Except.ok a) ∧ (∃ a, fs = Except.ok a) ∧
        (∃ a, fr = Except.ok a) ∧ (∃ a, fx = Except.ok a)) →
      (fullSync true fm fs fr fx ok st).error = none ∧
      (fullSync true fm fs fr fx ok st).state.offline = false) := by
  constructor
  · intro h
    cases fm with
    | error e => exact ⟨e, by simp [fullSync, promiseAll4, Bind.bind, Except.bind]⟩
    | ok a =>
      cases fs with
      | error e => exact ⟨e, by simp [fullSync, promiseAll4, Bind.bind, Except.bind]⟩
      | ok b =>
        cases fr with
        | error e => exact ⟨e, by simp [fullSync, promiseAll4, Bind.bind, Except.bind]⟩
        | ok c =>
          cases fx with
          | error e => exact ⟨e, by simp [fullSync, promiseAll4, Bind.bind, Except.bind]⟩
          | ok d =>
            rcases h with ⟨e, he⟩ | ⟨e, he⟩ | ⟨e, he⟩ | ⟨e, he⟩ <;> cases he
  · rintro ⟨⟨a, ha⟩, ⟨b, hb⟩, ⟨c, hc⟩, ⟨d, hd⟩⟩
    subst ha
    subst hb
    subst hc
    subst hd
    simp [fullSync, promiseAll4, Bind.bind, Except.bind, Pure.pure, Except.pure]

/-- C1 witness: a concrete rejected medicines fetch aborts a configured
`fullSync` with the state untouched apart from the offline flag, while four
resolved fetches end with no error and the online flag. -/
theorem fullSync_all_or_nothing_witness :
    (∃ e, fullSync true fetchErr fetchOkEmpty fetchOkEmpty fetchOkEmpty okAll emptyState =
      ⟨some e, fetchCalls, { emptyState with offline := true }⟩) ∧
    ((fullSync true fetchOkEmpty fetchOkEmpty fetchOkEmpty fetchOkEmpty okAll
        emptyState).error = none ∧
      (fullSync true fetchOkEmpty fetchOkEmpty fetchOkEmpty fetchOkEmpty okAll
        emptyState).state.offline = false) :=
  ⟨(fullSync_all_or_nothing fetchErr fetchOkEmpty fetchOkEmpty fetchOkEmpty okAll
      emptyState).1 (Or.inl ⟨"network", rfl⟩),
   (fullSync_all_or_nothing fetchOkEmpty fetchOkEmpty fetchOkEmpty fetchOkEmpty okAll
      emptyState).2 ⟨⟨⟨some []⟩, rfl⟩, ⟨⟨some []⟩, rfl⟩, ⟨⟨some []⟩, rfl⟩, ⟨⟨some []⟩, rfl⟩⟩⟩

/-- C8: when the gateway is not configured, every sync entry point is a no-op
rather than an error: `fullSync` performs zero remote calls, surfaces no
error, and leaves the whole local state (collections, queue, connectivity
flag) unchanged; `processQueue` attempts nothing, calls nothing and leaves the
queue unchanged; and each collection push performs no call and succeeds. -/
theorem notConfigured_noop (fm fs fr fx : Except String FetchResult)
    (ok : RemoteOp → Bool) (st : SyncState) (q : List QueuedAction)
    (records : List Rec) :
    fullSync false fm fs fr fx ok st = ⟨none, [], st⟩ ∧
    processQueue false ok q = ⟨[], [], q⟩ ∧
    syncMedicines false ok records = ([], Except.ok ()) ∧
    syncSales false ok records = ([], Except.ok ()) ∧
    syncRefunds false ok records = ([], Except.ok ()) ∧
    syncExpenses false ok records = ([], Except.ok ()) := by
  refine ⟨?_, ?_, ?_, ?_, ?_, ?_⟩ <;> rfl
